import Mathlib

/-!
Verification development for the Corabastos daily-bulletin price extractor.

The repository contains two HTTP route handlers written in TypeScript:
the single-day route (source file `src/unnamed/part_000`) and the date-range
route (`src/app/api/prices/history/route.ts`).  Both carry a near-identical
table-extraction core (`extractPrices`, `parseTableRow`, `isNewSection`);
the single-day route additionally carries the helper `extractDate`, and the
range route carries the request-validation phase of its `GET` handler.

Lines of input text are modelled as `List Char`.  The first section models
the ECMAScript string and regexp primitives the source uses (`trim`,
`toLowerCase`, `split`, `includes`, `indexOf`, `lastIndexOf`, `replace`,
global matching of the fixed patterns appearing in the source).  The second
section transcribes the table-extraction core of each route file, the
single-day `extractDate` helper and the range-route validation phase.
-/

set_option maxHeartbeats 1000000

namespace CalculatePrices

/-- A JavaScript string, modelled as its list of characters. -/
abbrev Str := List Char

theorem dropWhile_length_le (p : Char → Bool) :
    ∀ l : Str, (l.dropWhile p).length ≤ l.length
  | [] => Nat.le_refl _
  | c :: rest => by
    rw [List.dropWhile_cons]
    split
    · exact Nat.le_succ_of_le (dropWhile_length_le p rest)
    · exact Nat.le_refl _

/-! ### ECMAScript string-primitive layer -/

/-- The whitespace class used by `String.prototype.trim` and regexp `\s`
(restricted to the characters that can realistically occur in the inputs). -/
def isJsSpace (c : Char) : Bool :=
  c = ' ' || c = '\t' || c = '\n' || c = '\r' ||
  c = '\x0b' || c = '\x0c' || c = ' ' || c = '﻿'

/-- `String.prototype.toLowerCase`, per character: ASCII letters plus the
accented letters occurring in the Spanish header keywords. -/
def jsToLower (c : Char) : Char :=
  if 'A' ≤ c ∧ c ≤ 'Z' then Char.ofNat (c.toNat + 32)
  else if c = 'Á' then 'á'
  else if c = 'É' then 'é'
  else if c = 'Í' then 'í'
  else if c = 'Ó' then 'ó'
  else if c = 'Ú' then 'ú'
  else if c = 'Ñ' then 'ñ'
  else if c = 'Ü' then 'ü'
  else c

/-- `s.toLowerCase()`. -/
def lowerStr (s : Str) : Str := s.map jsToLower

/-- `s.trim()`. -/
def trimStr (s : Str) : Str :=
  ((s.dropWhile isJsSpace).reverse.dropWhile isJsSpace).reverse

/-- Does `s` start with `pre` (`String.prototype.startsWith`)? -/
def listStartsWith : Str → Str → Bool
  | _, [] => true
  | [], _ :: _ => false
  | a :: as, b :: bs => a = b && listStartsWith as bs

/-- `s.includes(sub)`: substring containment. -/
def containsSub : Str → Str → Bool
  | [], sub => sub.isEmpty
  | s@(_ :: rest), sub => listStartsWith s sub || containsSub rest sub

/-- `text.split('\n')`. -/
def splitOnNl : Str → List Str
  | [] => [[]]
  | '\n' :: rest => [] :: splitOnNl rest
  | c :: rest =>
    match splitOnNl rest with
    | h :: t => (c :: h) :: t
    | [] => [[c]]

/-- Worker for `collapseWS`; the flag records whether the previous character
was whitespace (so that each maximal run emits a single space). -/
def collapseAux : Bool → Str → Str
  | _, [] => []
  | prevWS, c :: rest =>
    if isJsSpace c then
      if prevWS then collapseAux true rest else ' ' :: collapseAux true rest
    else c :: collapseAux false rest

/-- `s.replace(/\s+/g, ' ')`: every maximal whitespace run becomes one space. -/
def collapseWS (s : Str) : Str := collapseAux false s

/-- `s.split(/\s+/)`: pieces between maximal whitespace runs, keeping the
empty leading and trailing pieces exactly as ECMAScript does.  A
whitespace character whose successor is also whitespace is absorbed into
the same separator run; a piece boundary is emitted at the end of each
run. -/
def splitWS : Str → List Str
  | [] => [[]]
  | c :: rest =>
    if isJsSpace c then
      match rest with
      | c2 :: rest2 =>
        if isJsSpace c2 then splitWS (c2 :: rest2) else [] :: splitWS (c2 :: rest2)
      | [] => [[], []]
    else
      match splitWS rest with
      | h :: t => (c :: h) :: t
      | [] => [[c]]

/-- `s.indexOf(sub)`, as `none` instead of `-1` when absent. -/
def idxOfSub? : Str → Str → Option Nat
  | s, sub =>
    if listStartsWith s sub then some 0
    else
      match s with
      | [] => none
      | _ :: rest => (idxOfSub? rest sub).map (· + 1)

/-- `s.lastIndexOf(sub)`, as `none` instead of `-1` when absent. -/
def lastIdxOfSub? : Str → Str → Option Nat
  | s, sub =>
    let tailRes : Option Nat :=
      match s with
      | [] => none
      | _ :: rest => (lastIdxOfSub? rest sub).map (· + 1)
    match tailRes with
    | some j => some j
    | none => if listStartsWith s sub then some 0 else none

/-- `s.substring(i)` for a possibly negative `i` (ECMAScript clamps to 0). -/
def dropInt (s : Str) (i : Int) : Str := s.drop i.toNat

/-- `s.replace(c, '')` with a plain one-character string argument: removes
only the first occurrence. -/
def removeFirst (c : Char) : Str → Str
  | [] => []
  | x :: xs => if x = c then xs else x :: removeFirst c xs

/-- The character class `[\d.,]` of the price pattern. -/
def isPriceChar (c : Char) : Bool := c.isDigit || c = '.' || c = ','

/-- Scanner worker for the global price-pattern match.  `cur = some acc`
means a match attempt is open whose characters so far are `acc` in
reverse order (a `$` possibly followed by `[\d.,]` characters); the
attempt is emitted when the run ends, unless it is a bare `$` (which the
pattern `\$[\d.,]+` does not match, so scanning simply resumes). -/
def ptAux : Option Str → Str → List Str
  | none, [] => []
  | some acc, [] => if acc = ['$'] then [] else [acc.reverse]
  | none, c :: rest =>
    if c = '$' then ptAux (some ['$']) rest else ptAux none rest
  | some acc, c :: rest =>
    if isPriceChar c then ptAux (some (c :: acc)) rest
    else if c = '$' then
      (if acc = ['$'] then ptAux (some ['$']) rest
       else acc.reverse :: ptAux (some ['$']) rest)
    else
      (if acc = ['$'] then ptAux none rest
       else acc.reverse :: ptAux none rest)

/-- `normalized.match(/\$[\d.,]+/g)`: all matches of the price pattern, in
left-to-right order (a `$` not followed by a `[\d.,]` character matches
nothing and scanning resumes at the next character). -/
def priceTokens (s : Str) : List Str := ptAux none s

/-- `s.padStart(2, '0')`. -/
def pad2 (s : Str) : Str := List.replicate (2 - s.length) '0' ++ s

/-! ### Data model -/

/-- One parsed table row (interface `ProductPrice`, identical in both
route files). -/
structure ProductPrice where
  name : Str
  presentation : Str
  quantity : Str
  unit : Str
  extraQualityPrice : Str
  firstQualityPrice : Str
  unitPrice : Str
  previousDayVariation : Str
deriving DecidableEq, Repr

/-- The local mutable state of the scan loop inside `extractPrices`. -/
structure ScanState where
  inTable : Bool
  headerFound : Bool
  headerLines : List Str
  productos : List ProductPrice
deriving DecidableEq, Repr

/-- `text.split('\n').map(trim).filter(length > 0)`, the line-splitting
shared verbatim by both `extractPrices` implementations. -/
def splitLines (text : Str) : List Str :=
  ((splitOnNl text).map trimStr).filter (fun l => decide (0 < l.length))

/-- `line.replace(/\s+/g, ' ').trim()`: the `normalized` local of
`parseTableRow`. -/
def normalizeLine (line : Str) : Str := trimStr (collapseWS line)

/-- The `validPrices` local of `parseTableRow`: all matches of
`/\$[\d.,]+/g` whose digit-only form (after stripping `$`, `,`, `.`)
has at least 4 digits. -/
def validTokens (normalized : Str) : List Str :=
  (priceTokens normalized).filter fun price =>
    decide (4 ≤ (price.filter fun c => !(c = '$' || c = ',' || c = '.')).length)

/-- The fixed sentinel `N/A`. -/
def naStr : Str := ['N', '/', 'A']

/-- The `cleanPrice` closure of `parseTableRow`:
`price.replace('$', '').trim()`. -/
def cleanPrice (price : Str) : Str := trimStr (removeFirst '$' price)

/-! ### Single-day route core (source file `src/unnamed/part_000`) -/

namespace Day

/-- The `headerKeywords` array of `extractPrices` (keeping the duplicated
entry of the source list). -/
def headerKeywords : List Str :=
  ["nombre".toList, "presentación".toList, "cantidad".toList, "unidad".toList,
   "medida".toList, "precio".toList, "calidad".toList, "extra".toList,
   "primera".toList, "unidad".toList, "variación".toList, "día".toList,
   "anterior".toList]

/-- The `requiredHeaderWords` array of `extractPrices`. -/
def requiredHeaderWords : List Str :=
  ["nombre".toList, "presentación".toList, "cantidad".toList, "precio".toList]

/-- `parseTableRow` (lines 239-312 of the source file). -/
def parseTableRow (line : Str) : Option ProductPrice :=
  let normalized := normalizeLine line
  let validPrices := validTokens normalized
  if validPrices.length < 3 then none
  else
    let lastThreePrices := validPrices.drop (validPrices.length - 3)
    match idxOfSub? normalized (lastThreePrices.getD 0 []) with
    | none => none
    | some firstPriceIndex =>
      let beforePrices := trimStr (normalized.take firstPriceIndex)
      let beforeParts := splitWS beforePrices
      let price2 := lastThreePrices.getD 2 []
      let lastPriceIndex : Int :=
        match lastIdxOfSub? normalized price2 with
        | none => -1
        | some j => (j : Int)
      let afterLastPrice := trimStr (dropInt normalized (lastPriceIndex + price2.length))
      let variation := afterLastPrice
      if beforeParts.length < 4 then none
      else
        let unit := beforeParts.getD (beforeParts.length - 1) []
        let quantity := beforeParts.getD (beforeParts.length - 2) []
        let presentation := beforeParts.getD (beforeParts.length - 3) []
        let name := List.intercalate [' '] (beforeParts.take (beforeParts.length - 3))
        if name.isEmpty || presentation.isEmpty ||
            !(!quantity.isEmpty && quantity.all Char.isDigit) || unit.isEmpty then none
        else
          some
            { name := trimStr name
              presentation := trimStr presentation
              quantity := trimStr quantity
              unit := trimStr unit
              extraQualityPrice := '$' :: cleanPrice (lastThreePrices.getD 0 [])
              firstQualityPrice := '$' :: cleanPrice (lastThreePrices.getD 1 [])
              unitPrice := '$' :: cleanPrice (lastThreePrices.getD 2 [])
              previousDayVariation :=
                if (trimStr variation).isEmpty then naStr else trimStr variation }

/-- `isNewSection` (lines 317-327): the line starts, case-insensitively,
with one of the end-of-section markers. -/
def isNewSection (line : Str) : Bool :=
  ["página".toList, "total".toList, "resumen".toList, "nota".toList,
   "fuente".toList].any
    fun kw => listStartsWith (lowerStr line) kw

/-- Does the lowercased line contain one of the header keywords
(the `hasHeaderKeyword` local of the scan loop)? -/
def hasHeaderKeyword (line : Str) : Bool :=
  headerKeywords.any fun keyword => containsSub (lowerStr line) keyword

/-- One iteration of the scan loop of `extractPrices` (lines 179-229),
as a pure transition on `ScanState`. -/
def scanStep (st : ScanState) (origLine : Str) : ScanState :=
  let hasKw := hasHeaderKeyword origLine
  if hasKw && !st.headerFound then
    let headerLines := st.headerLines ++ [origLine]
    let combinedHeaders := lowerStr (List.intercalate [' '] headerLines)
    let foundRequiredWords :=
      requiredHeaderWords.filter fun word => containsSub combinedHeaders word
    if 3 ≤ foundRequiredWords.length then
      { st with headerFound := true, inTable := true, headerLines := headerLines }
    else
      { st with headerLines := headerLines }
  else
    let st1 :=
      if st.headerFound && !st.inTable then { st with headerLines := [] } else st
    if st1.headerFound && st1.inTable then
      if hasKw && decide (0 < st1.productos.length) then st1
      else
        match parseTableRow origLine with
        | some row => { st1 with productos := st1.productos ++ [row] }
        | none =>
          if decide (origLine.length = 0) || isNewSection origLine then
            { st1 with inTable := false }
          else st1
    else st1

/-- `extractPrices` (lines 152-232): fold the scan loop over the split,
trimmed, non-empty lines and return the accumulated records. -/
def extractPrices (text : Str) : List ProductPrice :=
  (List.foldl scanStep ⟨false, false, [], []⟩ (splitLines text)).productos

/-- `extractDate` helpers: try to take exactly `n` ASCII digits. -/
def takeExactDigits (s : Str) (n : Nat) : Option (Str × Str) :=
  if (s.take n).length = n && (s.take n).all Char.isDigit then
    some (s.take n, s.drop n)
  else none

/-- Greedy bounded digit quantifier with regexp backtracking: try each
digit count of `lens` in order, passing the digits and the remaining
input to the continuation. -/
def tryLens (s : Str) (lens : List Nat) (k : Str → Str → Option α) : Option α :=
  match lens with
  | [] => none
  | n :: ns =>
    match takeExactDigits s n with
    | some (d, rest) =>
      match k d rest with
      | some r => some r
      | none => tryLens s ns k
    | none => tryLens s ns k

/-- First position (leftmost-match rule) at which the positional matcher
`f` succeeds. -/
def scanFirst (f : Str → Option α) : Str → Option α
  | [] => f []
  | s@(_ :: rest) =>
    match f s with
    | some r => some r
    | none => scanFirst f rest

/-- Match of `/(\d{1,2})\/(\d{1,2})\/(\d{4})/` at the current position,
returning the three capture groups. -/
def matchAtDMY (s : Str) : Option (Str × Str × Str) :=
  tryLens s [2, 1] fun d rest1 =>
    match rest1 with
    | '/' :: rest2 =>
      tryLens rest2 [2, 1] fun m rest3 =>
        match rest3 with
        | '/' :: rest4 => (takeExactDigits rest4 4).map fun p => (d, m, p.1)
        | _ => none
    | _ => none

/-- Match of `/(\d{4})-(\d{1,2})-(\d{1,2})/` at the current position,
returning the whole matched substring (`match[0]`). -/
def matchAtYMD (s : Str) : Option Str :=
  (takeExactDigits s 4).bind fun p =>
    match p.2 with
    | '-' :: rest2 =>
      tryLens rest2 [2, 1] fun m rest3 =>
        match rest3 with
        | '-' :: rest4 => tryLens rest4 [2, 1] fun d _ => some (p.1 ++ '-' :: m ++ '-' :: d)
        | _ => none
    | _ => none

/-- Skip regexp `\s+` (at least one whitespace character, maximal run). -/
def skipWS1 (s : Str) : Option Str :=
  match s with
  | c :: rest => if isJsSpace c then some (rest.dropWhile isJsSpace) else none
  | [] => none

/-- Expect the literal `de` case-insensitively (`/i` flag). -/
def expectDe (s : Str) : Option Str :=
  match s with
  | c1 :: c2 :: rest =>
    if jsToLower c1 = 'd' && jsToLower c2 = 'e' then some rest else none
  | _ => none

/-- The regexp `\w` class (ASCII letters, digits, underscore). -/
def isWordChar (c : Char) : Bool := c.isAlpha || c.isDigit || c = '_'

/-- Match of `/(\d{1,2})\s+de\s+(\w+)\s+de\s+(\d{4})/i` at the current
position (only the success of the match matters to the source). -/
def matchAtTextual (s : Str) : Option Unit :=
  tryLens s [2, 1] fun _ rest1 =>
    (skipWS1 rest1).bind fun r2 =>
    (expectDe r2).bind fun r3 =>
    (skipWS1 r3).bind fun r4 =>
    (match r4.takeWhile isWordChar with
     | [] => none
     | _ :: _ => some (r4.dropWhile isWordChar)).bind fun r5 =>
    (skipWS1 r5).bind fun r6 =>
    (expectDe r6).bind fun r7 =>
    (skipWS1 r7).bind fun r8 =>
    (takeExactDigits r8 4).map fun _ => ()

/-- Does the text contain a match of the textual date pattern? -/
def hasTextualDate (text : Str) : Bool :=
  (scanFirst matchAtTextual text).isSome

/-- `extractDate` (lines 332-355 of the source file).  The source loops
over the three patterns; a `DD/MM/YYYY` match returns the re-ordered,
zero-padded date and a `YYYY-MM-DD` match returns `match[0]` unchanged.
The loop body contains no `return` for the third, textual pattern, so when
only that pattern matches the loop falls through to `return null`. -/
def extractDate (text : Str) : Option Str :=
  match scanFirst matchAtDMY text with
  | some (d, m, y) => some (y ++ '-' :: pad2 m ++ '-' :: pad2 d)
  | none =>
    match scanFirst matchAtYMD text with
    | some whole => some whole
    | none =>
      match hasTextualDate text with
      | true => none
      | false => none

end Day

/-! ### Range route core (source file `src/app/api/prices/history/route.ts`) -/

namespace History

/-- The `headerKeywords` array of the range route `extractPrices`
(lines 259-273, identical to the single-day route). -/
def headerKeywords : List Str :=
  ["nombre".toList, "presentación".toList, "cantidad".toList, "unidad".toList,
   "medida".toList, "precio".toList, "calidad".toList, "extra".toList,
   "primera".toList, "unidad".toList, "variación".toList, "día".toList,
   "anterior".toList]

/-- The `requiredHeaderWords` array of the range route `extractPrices`. -/
def requiredHeaderWords : List Str :=
  ["nombre".toList, "presentación".toList, "cantidad".toList, "precio".toList]

/-- `parseTableRow` of the range route (lines 338-411). -/
def parseTableRow (line : Str) : Option ProductPrice :=
  let normalized := normalizeLine line
  let validPrices := validTokens normalized
  if validPrices.length < 3 then none
  else
    let lastThreePrices := validPrices.drop (validPrices.length - 3)
    match idxOfSub? normalized (lastThreePrices.getD 0 []) with
    | none => none
    | some firstPriceIndex =>
      let beforePrices := trimStr (normalized.take firstPriceIndex)
      let beforeParts := splitWS beforePrices
      let price2 := lastThreePrices.getD 2 []
      let lastPriceIndex : Int :=
        match lastIdxOfSub? normalized price2 with
        | none => -1
        | some j => (j : Int)
      let afterLastPrice := trimStr (dropInt normalized (lastPriceIndex + price2.length))
      let variation := afterLastPrice
      if beforeParts.length < 4 then none
      else
        let unit := beforeParts.getD (beforeParts.length - 1) []
        let quantity := beforeParts.getD (beforeParts.length - 2) []
        let presentation := beforeParts.getD (beforeParts.length - 3) []
        let name := List.intercalate [' '] (beforeParts.take (beforeParts.length - 3))
        if name.isEmpty || presentation.isEmpty ||
            !(!quantity.isEmpty && quantity.all Char.isDigit) || unit.isEmpty then none
        else
          some
            { name := trimStr name
              presentation := trimStr presentation
              quantity := trimStr quantity
              unit := trimStr unit
              extraQualityPrice := '$' :: cleanPrice (lastThreePrices.getD 0 [])
              firstQualityPrice := '$' :: cleanPrice (lastThreePrices.getD 1 [])
              unitPrice := '$' :: cleanPrice (lastThreePrices.getD 2 [])
              previousDayVariation :=
                if (trimStr variation).isEmpty then naStr else trimStr variation }

/-- `isNewSection` of the range route (lines 416-420). -/
def isNewSection (line : Str) : Bool :=
  ["página".toList, "total".toList, "resumen".toList, "nota".toList,
   "fuente".toList].any
    fun kw => listStartsWith (lowerStr line) kw

/-- The `hasHeaderKeyword` local of the scan loop of the range route. -/
def hasHeaderKeyword (line : Str) : Bool :=
  headerKeywords.any fun keyword => containsSub (lowerStr line) keyword

/-- One iteration of the scan loop of the range route `extractPrices`
(lines 281-328). -/
def scanStep (st : ScanState) (origLine : Str) : ScanState :=
  let hasKw := hasHeaderKeyword origLine
  if hasKw && !st.headerFound then
    let headerLines := st.headerLines ++ [origLine]
    let combinedHeaders := lowerStr (List.intercalate [' '] headerLines)
    let foundRequiredWords :=
      requiredHeaderWords.filter fun word => containsSub combinedHeaders word
    if 3 ≤ foundRequiredWords.length then
      { st with headerFound := true, inTable := true, headerLines := headerLines }
    else
      { st with headerLines := headerLines }
  else
    let st1 :=
      if st.headerFound && !st.inTable then { st with headerLines := [] } else st
    if st1.headerFound && st1.inTable then
      if hasKw && decide (0 < st1.productos.length) then st1
      else
        match parseTableRow origLine with
        | some row => { st1 with productos := st1.productos ++ [row] }
        | none =>
          if decide (origLine.length = 0) || isNewSection origLine then
            { st1 with inTable := false }
          else st1
    else st1

/-- `extractPrices` of the range route (lines 254-331). -/
def extractPrices (text : Str) : List ProductPrice :=
  (List.foldl scanStep ⟨false, false, [], []⟩ (splitLines text)).productos

/-! #### Request-validation phase of the `GET` handler of the range route -/

/-- Numeric value of a list of ASCII digits. -/
def digitsToNat (s : Str) : Nat :=
  s.foldl (fun acc c => 10 * acc + (c.toNat - '0'.toNat)) 0

/-- Test of `/^\d{4}-\d{2}-\d{2}$/` (line 108 of the route file). -/
def dateRegexMatch (s : Str) : Bool :=
  match s with
  | [y1, y2, y3, y4, h1, m1, m2, h2, d1, d2] =>
    [y1, y2, y3, y4].all Char.isDigit && h1 = '-' &&
    [m1, m2].all Char.isDigit && h2 = '-' && [d1, d2].all Char.isDigit
  | _ => false

/-- Gregorian leap-year test, as used by the ECMAScript `Date` calendar. -/
def isLeapYear (y : Nat) : Bool :=
  (y % 4 = 0 && y % 100 ≠ 0) || y % 400 = 0

/-- Days in a month of the proleptic Gregorian calendar. -/
def daysInMonth (y m : Nat) : Nat :=
  if m = 2 then if isLeapYear y then 29 else 28
  else if m = 4 || m = 6 || m = 9 || m = 11 then 30
  else 31

/-- Model of the ECMAScript built-in `new Date(s)` followed by the
`isNaN(date.getTime())` check, for the date-only ISO strings the route
feeds it (it is only called on strings that already passed
`dateRegexMatch`): the result is a valid time value exactly when the
month is 1-12 and the day fits the month. -/
def jsDateParse (s : Str) : Option (Nat × Nat × Nat) :=
  match s with
  | [y1, y2, y3, y4, h1, m1, m2, h2, d1, d2] =>
    if [y1, y2, y3, y4, m1, m2, d1, d2].all Char.isDigit && h1 = '-' && h2 = '-' then
      let y := digitsToNat [y1, y2, y3, y4]
      let m := digitsToNat [m1, m2]
      let d := digitsToNat [d1, d2]
      if 1 ≤ m && m ≤ 12 && 1 ≤ d && d ≤ daysInMonth y m then some (y, m, d)
      else none
    else none
  | _ => none

/-- `fromDate > toDate` on the time values of two date-only dates:
lexicographic on (year, month, day). -/
def dateGt (a b : Nat × Nat × Nat) : Bool :=
  a.1 > b.1 || (a.1 = b.1 && (a.2.1 > b.2.1 || (a.2.1 = b.2.1 && a.2.2 > b.2.2)))

/-- A string is falsy in ECMAScript exactly when it is empty; a missing
query parameter (`null`) is also falsy. -/
def paramFalsy : Option Str → Bool
  | none => true
  | some s => s.isEmpty

/-- Outcome of the validation phase of the `GET` handler of the range route:
either an HTTP-400 client error carrying its message, or the validated
pair of dates handed to the fetch-and-parse loop.  Document fetching and
`extractPrices` run only in the `proceed` case (lines 136-241 of the
route file are guarded by all four validation returns). -/
inductive RangeOutcome where
  | clientError (msg : Str)
  | proceed (fromDate toDate : Nat × Nat × Nat)
deriving DecidableEq, Repr

/-- The four error messages of lines 100-134 of the route file. -/
def msgRequired : Str :=
  "Both from and to date parameters are required. Format: YYYY-MM-DD".toList

def msgFormat : Str :=
  "Invalid date format. Use YYYY-MM-DD (e.g., 2025-11-20)".toList

def msgInvalid : Str :=
  "Invalid date. Please provide valid dates in format YYYY-MM-DD".toList

def msgOrder : Str :=
  "from date must be before or equal to to date".toList

/-- The validation phase of `GET` (lines 93-134 of the route file), as a
pure function of the two query parameters. -/
def rangeGET (fromParam toParam : Option Str) : RangeOutcome :=
  if paramFalsy fromParam || paramFalsy toParam then
    .clientError msgRequired
  else
    let f := fromParam.getD []
    let t := toParam.getD []
    if !dateRegexMatch f || !dateRegexMatch t then
      .clientError msgFormat
    else
      match jsDateParse f, jsDateParse t with
      | none, _ => .clientError msgInvalid
      | some _, none => .clientError msgInvalid
      | some fromDate, some toDate =>
        if dateGt fromDate toDate then .clientError msgOrder
        else .proceed fromDate toDate

/-- Is the outcome a client-facing rejection (no fetch, no parsing)? -/
def RangeOutcome.isClientError : RangeOutcome → Bool
  | .clientError _ => true
  | .proceed _ _ => false

end History

/-! ### Helper lemmas -/

theorem dropWhile_dropWhile (p : Char → Bool) (l : Str) :
    (l.dropWhile p).dropWhile p = l.dropWhile p := by
  induction l with
  | nil => rfl
  | cons c t ih =>
    rw [List.dropWhile_cons]
    split
    · exact ih
    · next hpc => simp [List.dropWhile_cons, hpc]

theorem head?_dropWhile_false (p : Char → Bool) (l : Str) (c : Char)
    (h : (l.dropWhile p).head? = some c) : p c = false := by
  induction l with
  | nil => simp [List.dropWhile] at h
  | cons a t ih =>
    rw [List.dropWhile_cons] at h
    split at h
    · exact ih h
    · next hpc =>
      simp only [List.head?_cons, Option.some.injEq] at h
      subst h
      exact Bool.not_eq_true _ ▸ Bool.of_not_eq_true hpc

theorem dropWhile_eq_self_of_head? (p : Char → Bool) (l : Str)
    (h : ∀ c, l.head? = some c → p c = false) : l.dropWhile p = l := by
  cases l with
  | nil => rfl
  | cons a t => simp [List.dropWhile_cons, h a rfl]

theorem prefix_head? {l₁ l₂ : Str} (h : l₁ <+: l₂) (hne : l₁ ≠ []) :
    l₂.head? = l₁.head? := by
  obtain ⟨t, rfl⟩ := h
  cases l₁ with
  | nil => exact absurd rfl hne
  | cons a s => rfl

/-- A trimmed string is a prefix of the string with only its leading
whitespace removed. -/
theorem trimStr_prefix_dropWhile (s : Str) :
    trimStr s <+: s.dropWhile isJsSpace := by
  have h := List.dropWhile_suffix (l := (s.dropWhile isJsSpace).reverse) isJsSpace
  have := List.reverse_prefix.mpr h
  simpa [trimStr] using this

theorem trimStr_idem (s : Str) : trimStr (trimStr s) = trimStr s := by
  have h1 : (trimStr s).dropWhile isJsSpace = trimStr s := by
    apply dropWhile_eq_self_of_head?
    intro c hc
    have hne : trimStr s ≠ [] := by
      intro he
      rw [he] at hc
      exact Option.noConfusion hc
    have hh := prefix_head? (trimStr_prefix_dropWhile s) hne
    exact head?_dropWhile_false isJsSpace s c (hh ▸ hc)
  show ((((trimStr s).dropWhile isJsSpace).reverse).dropWhile isJsSpace).reverse = trimStr s
  rw [h1]
  show ((((((s.dropWhile isJsSpace).reverse).dropWhile isJsSpace).reverse).reverse).dropWhile
    isJsSpace).reverse = trimStr s
  rw [List.reverse_reverse, dropWhile_dropWhile]
  rfl

theorem trimStr_of_no_space (l : Str) (h : ∀ c ∈ l, isJsSpace c = false) :
    trimStr l = l := by
  have h1 : l.dropWhile isJsSpace = l := by
    apply dropWhile_eq_self_of_head?
    intro c hc
    exact h c (by cases l with
      | nil => exact Option.noConfusion hc
      | cons a t =>
        simp only [List.head?_cons, Option.some.injEq] at hc
        exact hc ▸ List.mem_cons_self a t)
  have h2 : l.reverse.dropWhile isJsSpace = l.reverse := by
    apply dropWhile_eq_self_of_head?
    intro c hc
    refine h c ?_
    have : c ∈ l.reverse := by
      cases hr : l.reverse with
      | nil => rw [hr] at hc; exact Option.noConfusion hc
      | cons a t =>
        rw [hr] at hc
        simp only [List.head?_cons, Option.some.injEq] at hc
        exact hc ▸ (hr ▸ List.mem_cons_self a t)
    exact List.mem_reverse.mp this
  rw [trimStr, h1, h2, List.reverse_reverse]

/-- Scanner invariant: whenever the open attempt is a `$` followed by
`[\d.,]` characters, every emitted token is a `$` followed by a non-empty
run of `[\d.,]` characters. -/
theorem ptAux_shape (s : Str) :
    ∀ cur : Option Str,
      (∀ acc, cur = some acc → ∃ r, acc = r ++ ['$'] ∧ ∀ c ∈ r, isPriceChar c = true) →
      ∀ t ∈ ptAux cur s, ∃ r, t = '$' :: r ∧ r ≠ [] ∧ ∀ c ∈ r, isPriceChar c = true := by
  induction s with
  | nil =>
    intro cur hinv t ht
    cases cur with
    | none =>
      rw [ptAux] at ht
      exact absurd ht (List.not_mem_nil t)
    | some acc =>
      obtain ⟨r, rfl, hr⟩ := hinv acc rfl
      rw [ptAux] at ht
      split at ht
      · exact absurd ht (List.not_mem_nil t)
      · next hne =>
        have hrne : r ≠ [] := by
          intro h0
          exact hne (by rw [h0]; rfl)
        rcases List.mem_singleton.mp ht with rfl
        exact ⟨r.reverse, by simp, by simpa using hrne,
          fun c hc => hr c (List.mem_reverse.mp hc)⟩
  | cons c rest ih =>
    intro cur hinv t ht
    cases cur with
    | none =>
      rw [ptAux] at ht
      split at ht
      · exact ih (some ['$']) (fun acc h => ⟨[], by simpa using (Option.some.inj h).symm,
          by simp⟩) t ht
      · exact ih none (fun acc h => Option.noConfusion h) t ht
    | some acc =>
      obtain ⟨r, rfl, hr⟩ := hinv acc rfl
      have hemit : r ≠ [] →
          ∃ rr, (r ++ ['$']).reverse = '$' :: rr ∧ rr ≠ [] ∧
            ∀ c ∈ rr, isPriceChar c = true := fun h =>
        ⟨r.reverse, by simp, by simpa using h,
          fun c hc => hr c (List.mem_reverse.mp hc)⟩
      rw [ptAux] at ht
      split at ht
      · next hpc =>
        exact ih (some (c :: (r ++ ['$'])))
          (fun acc h => ⟨c :: r, by rw [← Option.some.inj h, List.cons_append],
            fun x hx => by
              rcases List.mem_cons.mp hx with rfl | hx
              · exact hpc
              · exact hr x hx⟩) t ht
      · have hdollar : ∀ u ∈ ptAux (some ['$']) rest,
            ∃ rr, u = '$' :: rr ∧ rr ≠ [] ∧ ∀ c ∈ rr, isPriceChar c = true :=
          ih (some ['$']) fun acc h => ⟨[], by simpa using (Option.some.inj h).symm, by simp⟩
        split at ht
        · split at ht
          · exact hdollar t ht
          · next hne =>
            rcases List.mem_cons.mp ht with rfl | ht
            · exact hemit fun h0 => hne (by rw [h0]; rfl)
            · exact hdollar t ht
        · have hnone : ∀ u ∈ ptAux none rest,
              ∃ rr, u = '$' :: rr ∧ rr ≠ [] ∧ ∀ c ∈ rr, isPriceChar c = true :=
            ih none fun _ h => Option.noConfusion h
          split at ht
          · exact hnone t ht
          · next hne =>
            rcases List.mem_cons.mp ht with rfl | ht
            · exact hemit fun h0 => hne (by rw [h0]; rfl)
            · exact hnone t ht

/-- Every token produced by the price-pattern scanner is a `$` followed by
a non-empty run of `[\d.,]` characters. -/
theorem priceTokens_shape (s : Str) :
    ∀ t ∈ priceTokens s, ∃ r, t = '$' :: r ∧ r ≠ [] ∧ ∀ c ∈ r, isPriceChar c = true :=
  ptAux_shape s none fun acc h => Option.noConfusion h

theorem isPriceChar_not_space (c : Char) (h : isPriceChar c = true) :
    isJsSpace c = false := by
  cases hs : isJsSpace c
  · rfl
  · exfalso
    simp only [isJsSpace, Bool.or_eq_true, decide_eq_true_eq] at hs
    rcases hs with (((((((h1 | h1) | h1) | h1) | h1) | h1) | h1) | h1) <;>
      (subst h1; simp [isPriceChar, Char.isDigit] at h)

theorem isDigit_not_space (c : Char) (h : c.isDigit = true) :
    isJsSpace c = false := by
  cases hs : isJsSpace c
  · rfl
  · exfalso
    simp only [isJsSpace, Bool.or_eq_true, decide_eq_true_eq] at hs
    rcases hs with (((((((h1 | h1) | h1) | h1) | h1) | h1) | h1) | h1) <;>
      (subst h1; simp [Char.isDigit] at h)

theorem validTokens_sub (s : Str) (t : Str) (h : t ∈ validTokens s) :
    t ∈ priceTokens s :=
  List.mem_of_mem_filter h

/-- Cleaning a price token and re-prefixing `$` reproduces the token. -/
theorem cleanPrice_token (s t : Str) (h : t ∈ validTokens s) :
    '$' :: cleanPrice t = t := by
  obtain ⟨r, rfl, hne, hall⟩ := priceTokens_shape s t (validTokens_sub s t h)
  have hrm : removeFirst '$' ('$' :: r) = r := by simp [removeFirst]
  rw [cleanPrice, hrm, trimStr_of_no_space r fun c hc => isPriceChar_not_space c (hall c hc)]

/-- All-digit strings are unchanged by trimming. -/
theorem trimStr_of_digits (l : Str) (h : l.all Char.isDigit = true) :
    trimStr l = l :=
  trimStr_of_no_space l fun c hc => isDigit_not_space c (List.all_eq_true.mp h c hc)

/-- The region of the line after the final occurrence of the last selected
price token (the `afterLastPrice` region of the source, before trimming). -/
def lastPriceSuffix (line : Str) : Str :=
  let normalized := normalizeLine line
  let validPrices := validTokens normalized
  let lastThreePrices := validPrices.drop (validPrices.length - 3)
  let price2 := lastThreePrices.getD 2 []
  let lastPriceIndex : Int :=
    match lastIdxOfSub? normalized price2 with
    | none => -1
    | some j => (j : Int)
  dropInt normalized (lastPriceIndex + price2.length)

/-- Full characterization of a successful run of the single-day
`parseTableRow`: at least three valid price tokens exist, the three price
fields of the record are the last three tokens verbatim, each of them
starts with `$`, the quantity is a non-empty digit string, and the
variation field is the trimmed suffix after the last token, with the
`N/A` sentinel when it is empty. -/
theorem Day.parseTableRow_some_spec (line : Str) (r : ProductPrice)
    (h : Day.parseTableRow line = some r) :
    3 ≤ (validTokens (normalizeLine line)).length ∧
    ∃ a b c,
      (validTokens (normalizeLine line)).drop
          ((validTokens (normalizeLine line)).length - 3) = [a, b, c] ∧
      r.extraQualityPrice = a ∧ r.firstQualityPrice = b ∧ r.unitPrice = c ∧
      (∃ ra, a = '$' :: ra) ∧ (∃ rb, b = '$' :: rb) ∧ (∃ rc, c = '$' :: rc) ∧
      r.quantity ≠ [] ∧ r.quantity.all Char.isDigit = true ∧
      r.previousDayVariation =
        (if (trimStr (lastPriceSuffix line)).isEmpty then naStr
         else trimStr (lastPriceSuffix line)) := by
  rw [Day.parseTableRow] at h
  split at h
  · exact absurd h (by simp)
  · next hlen =>
    have hlen3 : 3 ≤ (validTokens (normalizeLine line)).length := Nat.le_of_not_lt hlen
    refine ⟨hlen3, ?_⟩
    have hdlen : ((validTokens (normalizeLine line)).drop
        ((validTokens (normalizeLine line)).length - 3)).length = 3 := by
      rw [List.length_drop]
      omega
    obtain ⟨a, b, c, habc⟩ := List.length_eq_three.mp hdlen
    rw [habc] at h
    refine ⟨a, b, c, habc, ?_⟩
    have hmema : a ∈ validTokens (normalizeLine line) :=
      List.mem_of_mem_drop (habc ▸ List.mem_cons_self a [b, c])
    have hmemb : b ∈ validTokens (normalizeLine line) :=
      List.mem_of_mem_drop (habc ▸ List.mem_cons_of_mem a (List.mem_cons_self b [c]))
    have hmemc : c ∈ validTokens (normalizeLine line) :=
      List.mem_of_mem_drop
        (habc ▸ List.mem_cons_of_mem a (List.mem_cons_of_mem b (List.mem_cons_self c [])))
    simp only [List.getD_cons_zero, List.getD_cons_succ] at h
    split at h
    · exact absurd h (by simp)
    · next i hidx =>
      split at h
      · exact absurd h (by simp)
      · next hbp =>
        split at h
        · exact absurd h (by simp)
        · next hguard =>
          have hr := Option.some.inj h
          subst hr
          have hq : (!((splitWS (trimStr ((normalizeLine line).take i))).getD
                ((splitWS (trimStr ((normalizeLine line).take i))).length - 2) []).isEmpty &&
              ((splitWS (trimStr ((normalizeLine line).take i))).getD
                ((splitWS (trimStr ((normalizeLine line).take i))).length - 2) []).all
                Char.isDigit) = true := by
            by_contra hq
            have hx : (!((splitWS (trimStr ((normalizeLine line).take i))).getD
                  ((splitWS (trimStr ((normalizeLine line).take i))).length - 2) []).isEmpty &&
                ((splitWS (trimStr ((normalizeLine line).take i))).getD
                  ((splitWS (trimStr ((normalizeLine line).take i))).length - 2) []).all
                  Char.isDigit) = false := by
              cases hxx : (!((splitWS (trimStr ((normalizeLine line).take i))).getD
                  ((splitWS (trimStr ((normalizeLine line).take i))).length - 2) []).isEmpty &&
                ((splitWS (trimStr ((normalizeLine line).take i))).getD
                  ((splitWS (trimStr ((normalizeLine line).take i))).length - 2) []).all
                  Char.isDigit)
              · rfl
              · exact absurd hxx hq
            exact hguard (by rw [hx]; simp)
          rcases Bool.and_eq_true _ _ |>.mp hq with ⟨hq1, hq2⟩
          have hqne : ((splitWS (trimStr ((normalizeLine line).take i))).getD
              ((splitWS (trimStr ((normalizeLine line).take i))).length - 2) []) ≠ [] := by
            simpa [List.isEmpty_iff] using hq1
          have ha := cleanPrice_token _ a hmema
          have hb := cleanPrice_token _ b hmemb
          have hc := cleanPrice_token _ c hmemc
          refine ⟨ha, hb, hc,
            ⟨cleanPrice a, ha.symm⟩, ⟨cleanPrice b, hb.symm⟩, ⟨cleanPrice c, hc.symm⟩,
            ?_, ?_, ?_⟩
          · show trimStr _ ≠ []
            rw [trimStr_of_digits _ hq2]
            exact hqne
          · show (trimStr _).all Char.isDigit = true
            rw [trimStr_of_digits _ hq2]
            exact hq2
          · show (if (trimStr (trimStr _)).isEmpty then naStr else trimStr (trimStr _)) = _
            rw [trimStr_idem]
            simp only [lastPriceSuffix, habc, List.getD_cons_zero, List.getD_cons_succ]

/-! ### Claim theorems -/

/-- C1: for every input line in which more than 3 valid currency tokens
(4 or more digits after stripping `$`, `,`, `.`) are found, the Row
Parser selects the last three such tokens in left-to-right order and maps
them positionally to the record fields `extraQualityPrice`,
`firstQualityPrice` and `unitPrice`; each field equals its token verbatim,
hence is re-prefixed with `$` and preserves the original separator
characters. -/
theorem C1_row_parser_last_three (line : Str) (r : ProductPrice)
    (hmany : 3 < (validTokens (normalizeLine line)).length)
    (hrow : Day.parseTableRow line = some r) :
    (validTokens (normalizeLine line)).drop
        ((validTokens (normalizeLine line)).length - 3) =
      [r.extraQualityPrice, r.firstQualityPrice, r.unitPrice] := by
  obtain ⟨-, a, b, c, habc, ha, hb, hc, -⟩ := Day.parseTableRow_some_spec line r hrow
  rw [habc, ha, hb, hc]

theorem C1_witness :
    3 < (validTokens (normalizeLine
        "PAPA $9,999 X KILO 2 KILO $3,000 $3,100 $3,200".toList)).length ∧
    (validTokens (normalizeLine
        "PAPA $9,999 X KILO 2 KILO $3,000 $3,100 $3,200".toList)).drop
        ((validTokens (normalizeLine
          "PAPA $9,999 X KILO 2 KILO $3,000 $3,100 $3,200".toList)).length - 3) =
      ["$3,000".toList, "$3,100".toList, "$3,200".toList] := by
  refine ⟨by decide, ?_⟩
  have h := C1_row_parser_last_three
    "PAPA $9,999 X KILO 2 KILO $3,000 $3,100 $3,200".toList
    { name := "PAPA $9,999 X".toList, presentation := "KILO".toList,
      quantity := "2".toList, unit := "KILO".toList,
      extraQualityPrice := "$3,000".toList, firstQualityPrice := "$3,100".toList,
      unitPrice := "$3,200".toList, previousDayVariation := "N/A".toList }
    (by decide) (by decide)
  exact h

/-- C2: for every input line containing fewer than 3 currency tokens whose
digit-only form (after stripping `$`, `,`, `.`) has at least 4 digits,
the Row Parser returns no match (`none`) and produces no record. -/
theorem C2_too_few_tokens (line : Str)
    (hfew : (validTokens (normalizeLine line)).length < 3) :
    Day.parseTableRow line = none := by
  simp only [Day.parseTableRow]
  rw [if_pos hfew]

theorem C2_witness :
    (validTokens (normalizeLine "TOMATE KILO 2 KILO $3,000 $3,100".toList)).length < 3 ∧
    Day.parseTableRow "TOMATE KILO 2 KILO $3,000 $3,100".toList = none :=
  ⟨by decide, C2_too_few_tokens "TOMATE KILO 2 KILO $3,000 $3,100".toList (by decide)⟩

/-- C3: for every input line on which the Row Parser succeeds, the record
satisfies: `quantity` is a non-empty all-digit string (`^\d+$`); each of
`extraQualityPrice`, `firstQualityPrice` and `unitPrice` begins with `$`;
and `previousDayVariation` equals the trimmed text after the last price
token, or the sentinel `N/A` when that region is empty. -/
theorem C3_record_invariants (line : Str) (r : ProductPrice)
    (hrow : Day.parseTableRow line = some r) :
    (r.quantity ≠ [] ∧ r.quantity.all Char.isDigit = true) ∧
    r.extraQualityPrice.head? = some '$' ∧
    r.firstQualityPrice.head? = some '$' ∧
    r.unitPrice.head? = some '$' ∧
    r.previousDayVariation =
      (if (trimStr (lastPriceSuffix line)).isEmpty then naStr
       else trimStr (lastPriceSuffix line)) := by
  obtain ⟨-, a, b, c, -, ha, hb, hc, ⟨ra, hra⟩, ⟨rb, hrb⟩, ⟨rc, hrc⟩, hq1, hq2, hvar⟩ :=
    Day.parseTableRow_some_spec line r hrow
  refine ⟨⟨hq1, hq2⟩, ?_, ?_, ?_, hvar⟩
  · rw [ha, hra]; rfl
  · rw [hb, hrb]; rfl
  · rw [hc, hrc]; rfl

theorem C3_witness :
    Day.parseTableRow "TOMATE KILO 2 KILO $3,000 $3,100 $3,200".toList =
      some { name := "TOMATE".toList, presentation := "KILO".toList,
             quantity := "2".toList, unit := "KILO".toList,
             extraQualityPrice := "$3,000".toList,
             firstQualityPrice := "$3,100".toList,
             unitPrice := "$3,200".toList,
             previousDayVariation := "N/A".toList } ∧
    (("2".toList ≠ [] ∧ ("2".toList).all Char.isDigit = true) ∧
      ("$3,000".toList).head? = some '$' ∧
      ("$3,100".toList).head? = some '$' ∧
      ("$3,200".toList).head? = some '$' ∧
      "N/A".toList =
        (if (trimStr (lastPriceSuffix
            "TOMATE KILO 2 KILO $3,000 $3,100 $3,200".toList)).isEmpty then naStr
         else trimStr (lastPriceSuffix
            "TOMATE KILO 2 KILO $3,000 $3,100 $3,200".toList))) := by
  refine ⟨by decide, ?_⟩
  exact C3_record_invariants "TOMATE KILO 2 KILO $3,000 $3,100 $3,200".toList
    { name := "TOMATE".toList, presentation := "KILO".toList,
      quantity := "2".toList, unit := "KILO".toList,
      extraQualityPrice := "$3,000".toList, firstQualityPrice := "$3,100".toList,
      unitPrice := "$3,200".toList, previousDayVariation := "N/A".toList }
    (by decide)

/-- C4: while the header is not yet found, a keyword-bearing line that
brings the count of required words (nombre, presentación, cantidad,
precio) found as substrings of the lowercased space-joined accumulation
buffer to at least 3 makes the scanner enter the table; the completing
line is appended to the buffer and consumed, and no record is produced
for it.  The buffer may already hold several earlier keyword-bearing
lines, so the quorum can be met across three separate lines. -/
theorem C4_header_quorum (st : ScanState) (line : Str)
    (hnf : st.headerFound = false)
    (hkw : Day.hasHeaderKeyword line = true)
    (hq : 3 ≤ (Day.requiredHeaderWords.filter fun word =>
        containsSub (lowerStr (List.intercalate [' '] (st.headerLines ++ [line])))
          word).length) :
    Day.scanStep st line =
      { st with headerFound := true, inTable := true,
                headerLines := st.headerLines ++ [line] } := by
  simp only [Day.scanStep, hkw, hnf, Bool.not_false, Bool.and_self, if_true]
  rw [if_pos hq]

theorem C4_witness :
    (⟨false, false, ["NOMBRE PRODUCTO".toList, "PRESENTACIÓN".toList],
        []⟩ : ScanState).headerFound = false ∧
    Day.hasHeaderKeyword "CANTIDAD".toList = true ∧
    3 ≤ (Day.requiredHeaderWords.filter fun word =>
        containsSub (lowerStr (List.intercalate [' ']
          (["NOMBRE PRODUCTO".toList, "PRESENTACIÓN".toList] ++ ["CANTIDAD".toList])))
          word).length ∧
    Day.scanStep ⟨false, false, ["NOMBRE PRODUCTO".toList, "PRESENTACIÓN".toList], []⟩
        "CANTIDAD".toList =
      ⟨true, true, ["NOMBRE PRODUCTO".toList, "PRESENTACIÓN".toList,
        "CANTIDAD".toList], []⟩ := by
  refine ⟨rfl, by decide, by decide, ?_⟩
  exact C4_header_quorum
    ⟨false, false, ["NOMBRE PRODUCTO".toList, "PRESENTACIÓN".toList], []⟩
    "CANTIDAD".toList rfl (by decide) (by decide)

/-- C5: the claim states that before the header is found, the
accumulation buffer is emptied when a keyword-free line follows partial
accumulation.  The code disagrees: the reset branch is guarded by
`headerFound && !inTable`, so while `headerFound` is still false the
buffer survives keyword-free gaps and earlier lines keep counting toward
the quorum.  At the failing input, the keyword-free line `xxxx` leaves
the buffer untouched, the quorum is later met across the gap, and a row
is extracted, whereas under the claim no header would be found. -/
theorem C5_buffer_survives_gap :
    Day.scanStep ⟨false, false, ["nombre".toList], []⟩ "xxxx".toList =
      ⟨false, false, ["nombre".toList], []⟩ ∧
    (Day.extractPrices
      ("nombre\nxxxx\npresentación cantidad\nVALENTON KILO 1 KILO $35,000 $35,000 $35,000 Estable".toList)).length
      = 1 :=
  ⟨by decide, by decide⟩

/-- Once the table has been closed (`headerFound` true, `inTable` false),
every further step only clears the buffer: the state flags and the
record list never change again. -/
theorem scanStep_closed (st : ScanState) (l : Str)
    (hhf : st.headerFound = true) (hit : st.inTable = false) :
    Day.scanStep st l = { st with headerLines := [] } := by
  simp only [Day.scanStep, hhf, hit, Bool.not_true, Bool.and_false, Bool.not_false,
    Bool.and_self, Bool.and_true, Bool.false_and, if_true, if_false, Bool.false_eq_true]

/-- The closed state is absorbing: folding any remaining lines from it
never adds a record. -/
theorem closedAbsorb (rest : List Str) :
    ∀ st : ScanState, st.headerFound = true → st.inTable = false →
      (List.foldl Day.scanStep st rest).productos = st.productos := by
  induction rest with
  | nil => intro st _ _; rfl
  | cons l ls ih =>
    intro st h1 h2
    rw [List.foldl_cons, scanStep_closed st l h1 h2]
    exact ih { st with headerLines := [] } h1 h2

/-- C6 (amended): once the scanner is in the table, a line that fails row
parsing and matches an end-of-section marker closes the table and no
record is ever emitted afterwards, provided the marker line is actually
parsed — that is, it does not contain a header keyword while at least one
record already exists (in that case the spurious-header branch skips the
line unexamined and the table stays open). -/
theorem C6_close_terminal (st : ScanState) (line : Str) (rest : List Str)
    (hhf : st.headerFound = true) (hit : st.inTable = true)
    (hnospur : Day.hasHeaderKeyword line = false ∨ st.productos = [])
    (hfail : Day.parseTableRow line = none)
    (hsec : Day.isNewSection line = true) :
    (List.foldl Day.scanStep (Day.scanStep st line) rest).productos = st.productos := by
  have hstep : Day.scanStep st line = { st with inTable := false } := by
    rcases hnospur with hkw | hprod
    · simp [Day.scanStep, hhf, hit, hkw, hfail, hsec]
    · simp [Day.scanStep, hhf, hit, hprod, hfail, hsec]
  rw [hstep]
  exact closedAbsorb rest { st with inTable := false } hhf rfl

theorem C6_witness :
    (⟨true, true, [], []⟩ : ScanState).headerFound = true ∧
    (Day.hasHeaderKeyword "Total".toList = false ∨
      (⟨true, true, [], []⟩ : ScanState).productos = []) ∧
    Day.parseTableRow "Total".toList = none ∧
    Day.isNewSection "Total".toList = true ∧
    (List.foldl Day.scanStep
        (Day.scanStep ⟨true, true, [], []⟩ "Total".toList)
        ["TOMATE KILO 2 KILO $3,000 $3,100 $3,200".toList]).productos = [] := by
  refine ⟨rfl, Or.inl (by decide), by decide, by decide, ?_⟩
  exact C6_close_terminal ⟨true, true, [], []⟩ "Total".toList
    ["TOMATE KILO 2 KILO $3,000 $3,100 $3,200".toList]
    rfl rfl (Or.inl (by decide)) (by decide) (by decide)

/-- C6 counterexample: the claim as stated fails.  In this text the line
`Total precio` fails row parsing and matches the end-of-section marker
`total`, yet because it contains the header keyword `precio` and a record
has already been produced, the spurious-header branch skips it without
closing the table, and the later line still yields a record. -/
theorem C6_counterexample :
    Day.isNewSection "Total precio".toList = true ∧
    Day.parseTableRow "Total precio".toList = none ∧
    (Day.extractPrices
        ("nombre presentación cantidad\nVALENTON KILO 1 KILO $35,000 $35,000 $35,000 Estable\nTotal precio\nTOMATE KILO 2 KILO $3,000 $3,100 $3,200".toList)).map
        ProductPrice.name = ["VALENTON".toList, "TOMATE".toList] :=
  ⟨by decide, by decide, by decide⟩

/-- C7 (amended): the date helper returns the first `DD/MM/YYYY` match
re-ordered and zero-padded to `YYYY-MM-DD`; otherwise the first
`YYYY-MM-DD` match verbatim; otherwise `none` — the textual pattern
`D de <month> de YYYY` is tested by the loop but its match is discarded,
so it never produces a result. -/
theorem C7_extractDate_two_patterns (text : Str) :
    Day.extractDate text =
      (match Day.scanFirst Day.matchAtDMY text with
       | some (d, m, y) => some (y ++ '-' :: pad2 m ++ '-' :: pad2 d)
       | none => Day.scanFirst Day.matchAtYMD text) := by
  cases h1 : Day.scanFirst Day.matchAtDMY text with
  | some g =>
    obtain ⟨d, m, y⟩ := g
    rw [Day.extractDate, h1]
  | none =>
    rw [Day.extractDate, h1]
    cases h2 : Day.scanFirst Day.matchAtYMD text with
    | some w => rfl
    | none => cases h3 : Day.hasTextualDate text <;> rfl

/-- C7 counterexample: the claim as stated fails.  This text matches the
third pattern `D de <month> de YYYY` and neither of the other two, yet
`extractDate` returns `none` instead of the normalized date, because the
loop body has no return branch for the third pattern. -/
theorem C7_counterexample :
    Day.hasTextualDate "5 de enero de 2024".toList = true ∧
    Day.scanFirst Day.matchAtDMY "5 de enero de 2024".toList = none ∧
    Day.scanFirst Day.matchAtYMD "5 de enero de 2024".toList = none ∧
    Day.extractDate "5 de enero de 2024".toList = none :=
  ⟨by decide, by decide, by decide, by decide⟩

/-- The bad-request conditions of claim C8: a missing parameter, a
parameter failing the `^\d{4}-\d{2}-\d{2}$` format test, an invalid
calendar date, or a `from` after `to`. -/
def badRangeRequest (fp tp : Option Str) : Prop :=
  fp = none ∨ tp = none ∨
  (∃ f, fp = some f ∧ History.dateRegexMatch f = false) ∨
  (∃ t, tp = some t ∧ History.dateRegexMatch t = false) ∨
  (∃ f, fp = some f ∧ History.jsDateParse f = none) ∨
  (∃ t, tp = some t ∧ History.jsDateParse t = none) ∨
  (∃ f t df dt, fp = some f ∧ tp = some t ∧ History.jsDateParse f = some df ∧
    History.jsDateParse t = some dt ∧ History.dateGt df dt = true)

/-- C8: every range-mode request with a missing parameter, a malformed
`from`/`to` value, an invalid calendar date or `from` after `to` is
rejected with a client-facing error before any document fetch; the
`proceed` outcome, the only one that fetches and parses, is never
produced. -/
theorem C8_validation_rejects (fp tp : Option Str) (hbad : badRangeRequest fp tp) :
    (History.rangeGET fp tp).isClientError = true := by
  rw [History.rangeGET]
  split
  · rfl
  · next hfal =>
    have hor : (History.paramFalsy fp || History.paramFalsy tp) = false := by
      cases h : (History.paramFalsy fp || History.paramFalsy tp)
      · rfl
      · exact absurd h hfal
    rcases Bool.or_eq_false_iff.mp hor with ⟨hfp, htp⟩
    cases fp with
    | none => exact absurd hfp (by simp [History.paramFalsy])
    | some f =>
      cases tp with
      | none => exact absurd htp (by simp [History.paramFalsy])
      | some t =>
        simp only [Option.getD_some]
        split
        · rfl
        · next hfmt =>
          have hfmt2 : (!History.dateRegexMatch f || !History.dateRegexMatch t) = false := by
            cases h : (!History.dateRegexMatch f || !History.dateRegexMatch t)
            · rfl
            · exact absurd h hfmt
          rcases Bool.or_eq_false_iff.mp hfmt2 with ⟨hrf, hrt⟩
          have hrf : History.dateRegexMatch f = true := by
            cases h : History.dateRegexMatch f
            · rw [h] at hrf; exact absurd hrf (by simp)
            · rfl
          have hrt : History.dateRegexMatch t = true := by
            cases h : History.dateRegexMatch t
            · rw [h] at hrt; exact absurd hrt (by simp)
            · rfl
          split
          · rfl
          · rfl
          · next fd td hjf hjt =>
            split
            · rfl
            · next hgt =>
              exfalso
              have hgt2 : History.dateGt fd td = false := by
                cases h : History.dateGt fd td
                · rfl
                · exact absurd h hgt
              rcases hbad with h | h | ⟨f1, hf1, hx⟩ | ⟨t1, ht1, hx⟩ |
                ⟨f1, hf1, hx⟩ | ⟨t1, ht1, hx⟩ |
                ⟨f1, t1, df, dt, hf1, ht1, hpf, hpt, hx⟩
              · exact Option.noConfusion h
              · exact Option.noConfusion h
              · rw [Option.some.inj hf1] at hrf
                rw [hrf] at hx
                exact Bool.noConfusion hx
              · rw [Option.some.inj ht1] at hrt
                rw [hrt] at hx
                exact Bool.noConfusion hx
              · rw [Option.some.inj hf1] at hjf
                rw [hjf] at hx
                exact Option.noConfusion hx
              · rw [Option.some.inj ht1] at hjt
                rw [hjt] at hx
                exact Option.noConfusion hx
              · rw [Option.some.inj hf1] at hjf
                rw [Option.some.inj ht1] at hjt
                rw [hjf] at hpf
                rw [hjt] at hpt
                rw [Option.some.inj hpf, Option.some.inj hpt] at hgt2
                rw [hgt2] at hx
                exact Bool.noConfusion hx

theorem C8_witness :
    badRangeRequest (some "2025/11/20".toList) (some "2025-11-21".toList) ∧
    (History.rangeGET (some "2025/11/20".toList)
      (some "2025-11-21".toList)).isClientError = true := by
  have hb : badRangeRequest (some "2025/11/20".toList) (some "2025-11-21".toList) :=
    Or.inr (Or.inr (Or.inl ⟨"2025/11/20".toList, rfl, by decide⟩))
  exact ⟨hb, C8_validation_rejects _ _ hb⟩

/-- C9: the table-extraction core duplicated in the two route files is
extensionally equal: on every input text the two `extractPrices` return
identical record lists, and on every line the two `parseTableRow` and the
two `isNewSection` agree. -/
theorem C9_duplicated_core_agrees (text line : Str) :
    Day.extractPrices text = History.extractPrices text ∧
    Day.parseTableRow line = History.parseTableRow line ∧
    Day.isNewSection line = History.isNewSection line :=
  ⟨rfl, rfl, rfl⟩

/-- C10: every line examined by the Table Scanner comes from the split
that trims and removes empty lines, so it is non-empty; consequently the
`lines[i].length === 0` disjunct of the table-close condition can never
fire, and a step can close the table only on a line matching an
end-of-section marker. -/
theorem C10_close_only_on_marker (text l : Str) (hmem : l ∈ splitLines text) :
    l ≠ [] ∧ ∀ st : ScanState, st.inTable = true →
      (Day.scanStep st l).inTable = false → Day.isNewSection l = true := by
  have hp := List.of_mem_filter hmem
  have hne : l ≠ [] := by
    intro h0
    rw [h0] at hp
    simp at hp
  refine ⟨hne, ?_⟩
  intro st hit hflip
  by_contra hsec
  have hsec2 : Day.isNewSection l = false := by
    cases h : Day.isNewSection l
    · rfl
    · exact absurd h hsec
  have hlen0 : decide (l.length = 0) = false := by
    simp [List.length_eq_zero, hne]
  simp only [Day.scanStep, hit, hlen0, hsec2, Bool.not_true, Bool.and_false,
    Bool.and_true, if_false, Bool.or_self, Bool.false_or] at hflip
  repeat split at hflip
  all_goals simp_all
  all_goals repeat split at hflip
  all_goals try (cases hpt : Day.parseTableRow l)
  all_goals simp_all

theorem C10_witness :
    "Total".toList ∈ splitLines "VALENTON KILO 1 KILO\n\n  Total  ".toList ∧
    ("Total".toList ≠ [] ∧ ∀ st : ScanState, st.inTable = true →
      (Day.scanStep st "Total".toList).inTable = false →
      Day.isNewSection "Total".toList = true) := by
  refine ⟨by decide, ?_⟩
  exact C10_close_only_on_marker "VALENTON KILO 1 KILO\n\n  Total  ".toList
    "Total".toList (by decide)

end CalculatePrices


